import Mathlib

/-!
Verification of the food-recognition engine of `food_tracker` (`ai.py`).

The Python source is shallowly embedded:
* strings are Lean `String`s (ASCII-idealised: Python `str.lower` and the
  regex class `\w` are modelled on ASCII letters/digits/underscore, matching
  the specification's `[A-Za-z0-9_']+`);
* Python `float` is modelled by `ℝ` (exact real arithmetic);
* a `dict`/`Counter` mapping tokens to numbers is modelled by an association
  list with pairwise-distinct keys in first-occurrence order;
* `list.sort(key=..., reverse=True)` (a stable sort) is modelled by
  `List.mergeSort`, which is likewise stable;
* Python slicing `l[:k]` (including negative `k`) is modelled by `pySlice`;
* the already-deserialised JSON records consumed by `_load_reference` are
  modelled by `RawRecord`, whose `Option` fields capture present/absent keys;
  `record["name"]` on a missing key raises, modelled by `Except.error`.
-/

namespace FoodTracker

/-- The character class of the token regex `[\w']+` applied to lowercased
text (ASCII model of Python `\w` plus the apostrophe). -/
def isTokenChar (c : Char) : Bool :=
  c.isAlphanum || c == '_' || c == '\''

/-- Maximal runs of characters satisfying `p`: the semantics of
`re.findall(r"[\w']+", s)` at the character-list level. -/
def tokenizeChars (p : Char → Bool) : List Char → List (List Char)
  | [] => []
  | c :: cs =>
    if p c then
      (c :: cs.takeWhile p) :: tokenizeChars p (cs.dropWhile p)
    else
      tokenizeChars p cs
termination_by l => l.length
decreasing_by
  · simp only [List.length_cons]
    exact Nat.lt_succ_of_le (List.dropWhile_sublist p).length_le
  · simp

/-- `text.lower()` (ASCII model, per character). -/
def lowerChars (text : String) : List Char :=
  text.data.map Char.toLower

/-- `_tokenize(text)`: `_TOKEN_RE.findall(text.lower())`. -/
def tokenize (text : String) : List String :=
  (tokenizeChars isTokenChar (lowerChars text)).map fun cs => String.mk cs

/-- First-occurrence deduplication (the key order of a Python `Counter`). -/
def dedupKeepFirst : List String → List String
  | [] => []
  | t :: ts => t :: dedupKeepFirst (ts.filter fun u => u != t)
termination_by l => l.length
decreasing_by
  simp only [List.length_cons]
  exact Nat.lt_succ_of_le (List.filter_sublist _).length_le

/-- `Counter(tokens)` as an association list: each distinct token paired
with its number of occurrences. -/
def counts (tokens : List String) : List (String × ℕ) :=
  (dedupKeepFirst tokens).map fun t => (t, tokens.count t)

/-- A bag-of-words vector: association list from token to real weight. -/
abbrev TextVector := List (String × ℝ)

/-- Sum of squared values of a vector. -/
def sumSq (v : TextVector) : ℝ :=
  (v.map fun p => p.2 * p.2).sum

/-- `_normalise(vector)`: divide every value by
`math.sqrt(sum(value * value)) or 1.0`. -/
noncomputable def normalise (vector : TextVector) : TextVector :=
  let norm := Real.sqrt (sumSq vector)
  let d := if norm = 0 then 1 else norm
  vector.map fun p => (p.1, p.2 / d)

/-- Dictionary lookup `v[k]`, defaulting to `0` (used only at keys that are
present; total for convenience). -/
def lookup0 (v : TextVector) (k : String) : ℝ :=
  ((v.find? fun p => p.1 == k).map Prod.snd).getD 0

/-- `k in v` for the key set of an association list. -/
def hasKey (v : TextVector) (k : String) : Bool :=
  v.any fun p => p.1 == k

/-- `_cosine_similarity(a, b)`: `sum(a[key] * b[key] for key in set(a) & set(b))`
(the sum over common keys; order-irrelevant over `ℝ`). -/
def cosine_similarity (a b : TextVector) : ℝ :=
  ((a.filter fun p => hasKey b p.1).map fun p => p.2 * lookup0 b p.1).sum

/-- `EmbeddingModel.encode` on a single text: `_normalise(Counter(_tokenize(text)))`. -/
noncomputable def encodeOne (text : String) : TextVector :=
  normalise ((counts (tokenize text)).map fun p => (p.1, (p.2 : ℝ)))

/-- `EmbeddingModel.encode(texts)`: one vector per text, order preserved. -/
noncomputable def encode (texts : List String) : List TextVector :=
  texts.map encodeOne

/-- `FoodItem` (`models.py`): name, serving size, calories, macronutrients,
aliases.  Calories and nutrient amounts are modelled as `ℚ` (they are only
stored and printed by the engine, never combined with the real-valued
similarity arithmetic). -/
structure FoodItem where
  name : String
  serving_size : String
  calories : ℚ
  macronutrients : List (String × ℚ)
  aliases : List String
  deriving DecidableEq

/-- Case-insensitive substring containment: `needle.lower() in hay.lower()`. -/
def strContains (hay needle : String) : Bool :=
  decide (lowerChars needle <:+: lowerChars hay)

/-- Modelled from the spec: `FoodItem.matches` lives in `models.py`, which is
not part of the sources; the spec defines the predicate as: the item matches
the text if, case-insensitively, the text equals or is contained within the
item's name, or equals or is contained within any alias. -/
def FoodItem.matches (item : FoodItem) (text : String) : Bool :=
  strContains item.name text || item.aliases.any fun a => strContains a text

/-- `FoodRecognitionEngine._item_representation(item)`:
`f"{item.name} serving {item.serving_size} {aliases} {macros}"` where
`aliases` and `macros` are comma-joined. -/
def item_representation (item : FoodItem) : String :=
  let aliases := String.intercalate ", " item.aliases
  let macros := String.intercalate ", "
    (item.macronutrients.map fun p => p.1 ++ ":" ++ toString p.2)
  item.name ++ " serving " ++ item.serving_size ++ " " ++ aliases ++ " " ++ macros

/-- `RecognisedFood`: a recognition result (item plus confidence). -/
structure RecognisedFood where
  item : FoodItem
  confidence : ℝ

/-- One already-deserialised JSON record of the reference dataset; an
`Option` field is `none` exactly when the JSON object lacks that key. -/
structure RawRecord where
  name : Option String
  serving_size : Option String
  calories : Option ℚ
  macronutrients : Option (List (String × ℚ))
  aliases : Option (List String)
  deriving DecidableEq

/-- `FoodRecognitionEngine._load_reference`: build a `FoodItem` per record;
`record["name"]` raises `KeyError` when the key is absent (modelled by
`Except.error`), the remaining fields use `record.get(key, default)`. -/
def load_reference : List RawRecord → Except String (List FoodItem)
  | [] => .ok []
  | record :: rest =>
    match record.name with
    | none => .error "KeyError: name"
    | some n =>
      (load_reference rest).map fun items =>
        { name := n
          serving_size := record.serving_size.getD "1 serving"
          calories := record.calories.getD 0
          macronutrients := record.macronutrients.getD []
          aliases := record.aliases.getD [] } :: items

/-- `FoodRecognitionEngine` state: the two parallel sequences
`_reference_items` and `_reference_vectors`. -/
structure FoodRecognitionEngine where
  reference_items : List FoodItem
  reference_vectors : List TextVector

/-- The tail of `__init__` after a successful `_load_reference`: store the
items and encode the representation of every item. -/
noncomputable def mkEngine (items : List FoodItem) : FoodRecognitionEngine :=
  { reference_items := items
    reference_vectors := encode (items.map item_representation) }

/-- `FoodRecognitionEngine.__init__` on an already-deserialised dataset:
propagate the loading error or build the engine. -/
noncomputable def initEngine (records : List RawRecord) :
    Except String FoodRecognitionEngine :=
  (load_reference records).map mkEngine

/-- `FoodRecognitionEngine.known_items`: a fresh list of the catalog items. -/
def known_items (e : FoodRecognitionEngine) : List FoodItem :=
  e.reference_items

/-- Truthiness of `description.strip()` negated: `not description.strip()`
holds exactly when every character is whitespace. -/
def stripIsEmpty (s : String) : Bool :=
  s.data.all Char.isWhitespace

/-- Python list slicing `l[:k]` for an arbitrary integer `k`: for `k ≥ 0`
the first `k` elements, for `k < 0` all but the last `-k` elements. -/
def pySlice (l : List α) (k : ℤ) : List α :=
  if 0 ≤ k then l.take k.toNat else l.take (l.length - (-k).toNat)

/-- The loop body of `recognise`: one `RecognisedFood` per `(item, vector)`
pair of `zip(self._reference_items, self._reference_vectors)`, scored by
cosine similarity with the alias override applied. -/
noncomputable def scoredList (e : FoodRecognitionEngine) (description : String) :
    List RecognisedFood :=
  let description_vector := encodeOne description
  (e.reference_items.zip e.reference_vectors).map fun p =>
    let confidence := cosine_similarity description_vector p.2
    { item := p.1
      confidence := if p.1.matches description then max confidence 0.99 else confidence }

/-- The comparator of `scored.sort(key=lambda r: r.confidence, reverse=True)`:
descending confidence (a stable sort under this relation is exactly what the
Python stable sort with `reverse=True` produces). -/
noncomputable def confLe (a b : RecognisedFood) : Bool :=
  decide (b.confidence ≤ a.confidence)

/-- `FoodRecognitionEngine.recognise(description, top_k)`. -/
noncomputable def recognise (e : FoodRecognitionEngine) (description : String)
    (top_k : ℤ) : List RecognisedFood :=
  if stripIsEmpty description then []
  else pySlice ((scoredList e description).mergeSort confLe) top_k

/-- `FoodRecognitionEngine.add_custom_item(item)`: append the item and append
the encoding of its representation. -/
noncomputable def add_custom_item (e : FoodRecognitionEngine) (item : FoodItem) :
    FoodRecognitionEngine :=
  { reference_items := e.reference_items ++ [item]
    reference_vectors := e.reference_vectors ++ [encodeOne (item_representation item)] }

/-- `FoodRecognitionEngine.scan_bulk(descriptions)`: `recognise` with the
default `top_k = 3` on every description. -/
noncomputable def scan_bulk (e : FoodRecognitionEngine) (descriptions : List String) :
    List (List RecognisedFood) :=
  descriptions.map fun description => recognise e description 3

/-- Engine states reachable through the public API: constructed from a
dataset, then extended by any sequence of `add_custom_item` calls. -/
inductive Reachable : FoodRecognitionEngine → Prop
  | init (records : List RawRecord) (items : List FoodItem) :
      load_reference records = .ok items → Reachable (mkEngine items)
  | add (e : FoodRecognitionEngine) (item : FoodItem) :
      Reachable e → Reachable (add_custom_item e item)

/-- The character class `[a-z0-9_']` of the specification (tokens of the
lowercased text contain no uppercase letters). -/
def isLowerTokenChar (c : Char) : Bool :=
  c.isLower || c.isDigit || c == '_' || c == '\''

/-- `RunSplit p l toks`: `toks` is exactly the list of maximal non-empty runs
of characters of `l` satisfying `p`, in order, all separator characters
discarded.  (Two runs can never be adjacent: a `run` step requires the next
remaining character, if any, to be a separator.) -/
inductive RunSplit (p : Char → Bool) : List Char → List (List Char) → Prop
  | nil : RunSplit p [] []
  | sep {c : Char} {l : List Char} {toks : List (List Char)} :
      p c = false → RunSplit p l toks → RunSplit p (c :: l) toks
  | run {t l : List Char} {toks : List (List Char)} :
      t ≠ [] → (∀ c ∈ t, p c = true) → (∀ c ∈ l.head?, p c = false) →
      RunSplit p l toks → RunSplit p (t ++ l) (t :: toks)

/-- The catalog invariant: the vector sequence is index-aligned with the item
sequence, each vector being the encoding of its item's representation. -/
def aligned (e : FoodRecognitionEngine) : Prop :=
  e.reference_vectors = e.reference_items.map fun item =>
    encodeOne (item_representation item)

/-- Descending-confidence order on recognition results. -/
def confDesc (a b : RecognisedFood) : Prop :=
  b.confidence ≤ a.confidence

/-- The confidence the `recognise` loop assigns to an item with catalog
vector `vec`: the cosine similarity against the description vector, raised
to `max(confidence, 0.99)` when the item lexically matches. -/
noncomputable def assignedConfidence (item : FoodItem) (description : String)
    (vec : TextVector) : ℝ :=
  let confidence := cosine_similarity (encodeOne description) vec
  if item.matches description then max confidence 0.99 else confidence

/-- Sample catalog item used to evaluate the theorems on concrete inputs. -/
def bananaItem : FoodItem :=
  { name := "banana", serving_size := "1 medium", calories := 105
    macronutrients := [("carbs", 27)], aliases := ["ripe banana"] }

/-- A second sample catalog item. -/
def appleItem : FoodItem :=
  { name := "apple", serving_size := "1 medium", calories := 95
    macronutrients := [("carbs", 25)], aliases := [] }

/-- A sample item whose name contains a space. -/
def abItem : FoodItem :=
  { name := "a b", serving_size := "1 serving", calories := 0
    macronutrients := [], aliases := [] }

/-- A sample custom item carrying the alias of the specification's example. -/
def pbjItem : FoodItem :=
  { name := "peanut butter jelly sandwich", serving_size := "1 sandwich"
    calories := 350, macronutrients := [], aliases := ["PB&J"] }

/-- A raw dataset record that deserialises to `bananaItem`. -/
def bananaRecord : RawRecord :=
  { name := some "banana", serving_size := some "1 medium"
    calories := some 105, macronutrients := some [("carbs", 27)]
    aliases := some ["ripe banana"] }

/-- A raw dataset record that deserialises to `appleItem` (its missing
`aliases` key defaults to the empty list). -/
def appleRecord : RawRecord :=
  { name := some "apple", serving_size := some "1 medium"
    calories := some 95, macronutrients := some [("carbs", 25)]
    aliases := none }

/-- Raw dataset records that deserialise to `bananaItem` and `appleItem`. -/
def sampleRecords : List RawRecord :=
  [bananaRecord, appleRecord]

/-- A one-record dataset deserialising to `bananaItem`. -/
def singleRecords : List RawRecord :=
  [bananaRecord]

/-- A record with no `name` key at all. -/
def noNameRecord : RawRecord :=
  { name := none, serving_size := none, calories := none
    macronutrients := none, aliases := none }

/-- A concrete two-item engine (the one produced from `sampleRecords`). -/
noncomputable def sampleEngine : FoodRecognitionEngine :=
  mkEngine [bananaItem, appleItem]

/-- A concrete one-item engine. -/
noncomputable def singleEngine : FoodRecognitionEngine :=
  mkEngine [bananaItem]

/-- The raw term-frequency vector of a text (counts cast to `ℝ`). -/
noncomputable def rawVector (text : String) : TextVector :=
  (counts (tokenize text)).map fun p => (p.1, (p.2 : ℝ))

/-- The set of keys of an association-list vector. -/
def keysFinset (v : TextVector) : Finset String :=
  (v.map Prod.fst).toFinset

/-! ### Tokenizer correctness -/

theorem charOfNat_toNat (m : ℕ) (hv : m.isValidChar) : (Char.ofNat m).toNat = m := by
  simp [Char.ofNat, hv, Char.ofNatAux, Char.toNat, UInt32.toNat, BitVec.toNat_ofNatLt]

theorem char_isUpper_iff (d : Char) :
    d.isUpper = (decide (65 ≤ d.toNat) && decide (d.toNat ≤ 90)) := by
  simp [Char.isUpper, Char.toNat, UInt32.le_def, BitVec.le_def, ge_iff_le, UInt32.toNat]

/-- Lowercasing never produces an uppercase ASCII letter. -/
theorem toLower_not_upper (c : Char) : (Char.toLower c).isUpper = false := by
  simp only [Char.toLower]
  by_cases h : c.toNat ≥ 65 ∧ c.toNat ≤ 90
  · rw [if_pos h]
    have hv : (c.toNat + 32).isValidChar := Or.inl (by omega)
    rw [char_isUpper_iff, charOfNat_toNat _ hv]
    simp only [Bool.and_eq_false_iff, decide_eq_false_iff_not]
    right
    omega
  · rw [if_neg h]
    rw [char_isUpper_iff]
    simp only [Bool.and_eq_false_iff, decide_eq_false_iff_not]
    omega

/-- On non-uppercase characters the regex class `[\w']` coincides with the
specification's lowercase class `[a-z0-9_']`. -/
theorem isTokenChar_eq_isLowerTokenChar {c : Char} (h : c.isUpper = false) :
    isTokenChar c = isLowerTokenChar c := by
  simp [isTokenChar, isLowerTokenChar, Char.isAlphanum, Char.isAlpha, h]

theorem head?_dropWhile_false (p : Char → Bool) :
    ∀ (l : List Char), ∀ c ∈ (l.dropWhile p).head?, p c = false := by
  intro l
  induction l with
  | nil => simp
  | cons a as ih =>
    intro c h
    by_cases hp : p a
    · rw [List.dropWhile_cons_of_pos hp] at h
      exact ih c h
    · rw [List.dropWhile_cons_of_neg hp] at h
      simp only [List.head?_cons, Option.mem_def, Option.some.injEq] at h
      subst h
      exact Bool.eq_false_iff.mpr hp

/-- `tokenizeChars` computes a maximal-run decomposition. -/
theorem tokenizeChars_runSplit (p : Char → Bool) (l : List Char) :
    RunSplit p l (tokenizeChars p l) := by
  have H : ∀ n, ∀ l : List Char, l.length = n → RunSplit p l (tokenizeChars p l) := by
    intro n
    induction n using Nat.strong_induction_on with
    | _ n ih =>
      intro l hn
      match l with
      | [] =>
        rw [tokenizeChars]
        exact RunSplit.nil
      | c :: cs =>
        rw [tokenizeChars]
        by_cases hp : p c
        · rw [if_pos hp]
          have hsplit : c :: cs = (c :: cs.takeWhile p) ++ cs.dropWhile p := by
            simp [List.takeWhile_append_dropWhile]
          rw [hsplit]
          refine RunSplit.run (by simp) ?_ (head?_dropWhile_false p cs) ?_
          · intro d hd
            rcases List.mem_cons.mp hd with h | h
            · subst h; exact hp
            · exact List.mem_takeWhile_imp h
          · subst hn
            exact ih ((cs.dropWhile p).length)
              (Nat.lt_succ_of_le (List.dropWhile_sublist p).length_le)
              (cs.dropWhile p) rfl
        · rw [if_neg hp]
          refine RunSplit.sep (Bool.eq_false_iff.mpr hp) ?_
          subst hn
          exact ih cs.length (by simp) cs rfl
  exact H l.length l rfl

/-- A run decomposition only inspects `p` on the characters of the list, so
it transfers to any predicate agreeing there. -/
theorem RunSplit.congrPred {p q : Char → Bool} {l : List Char}
    {toks : List (List Char)} (h : RunSplit p l toks)
    (hpq : ∀ c ∈ l, p c = q c) : RunSplit q l toks := by
  induction h with
  | nil => exact RunSplit.nil
  | sep hc _ ih =>
    refine RunSplit.sep ?_ (ih fun c hc => hpq c (List.mem_cons_of_mem _ hc))
    rw [← hpq _ (List.mem_cons_self _ _)]
    assumption
  | run ht hall hhead _ ih =>
    refine RunSplit.run ht ?_ ?_
      (ih fun c hc => hpq c (List.mem_append_right _ hc))
    · intro c hc
      rw [← hpq c (List.mem_append_left _ hc)]
      exact hall c hc
    · intro c hc
      have hmem : c ∈ _ := List.mem_of_mem_head? hc
      rw [← hpq c (List.mem_append_right _ hmem)]
      exact hhead c hc

/-- Characters of the lowercased text are never uppercase. -/
theorem mem_lowerChars_not_upper {text : String} {c : Char}
    (h : c ∈ lowerChars text) : c.isUpper = false := by
  rcases List.mem_map.mp h with ⟨c₀, _, rfl⟩
  exact toLower_not_upper c₀

/-- Every run of a run decomposition is non-empty and drawn from the class. -/
theorem RunSplit.mem_spec {p : Char → Bool} {l : List Char}
    {toks : List (List Char)} (h : RunSplit p l toks) :
    ∀ t ∈ toks, t ≠ [] ∧ ∀ c ∈ t, p c = true := by
  induction h with
  | nil => simp
  | sep _ _ ih => exact ih
  | run ht hall _ _ ih =>
    intro t hint
    rcases List.mem_cons.mp hint with h | h
    · subst h; exact ⟨ht, hall⟩
    · exact ih t h

/-- The token lists of `tokenize` are exactly the `tokenizeChars` runs. -/
theorem tokenize_data (text : String) :
    (tokenize text).map String.data = tokenizeChars isTokenChar (lowerChars text) := by
  simp only [tokenize, List.map_map]
  have h : (String.data ∘ fun cs : List Char => String.mk cs) = id := rfl
  rw [h, List.map_id]

/-- The run decomposition of the lowered text under the specification's
character class `[a-z0-9_']`. -/
theorem tokenize_runSplit (text : String) :
    RunSplit isLowerTokenChar (lowerChars text) ((tokenize text).map String.data) := by
  rw [tokenize_data]
  exact (tokenizeChars_runSplit isTokenChar (lowerChars text)).congrPred
    fun c hc => isTokenChar_eq_isLowerTokenChar (mem_lowerChars_not_upper hc)

/-- C2: tokenization lowercases the text and returns exactly the maximal
non-empty runs of characters drawn from `[a-z0-9_']` in order (all other
characters are discarded separators); the empty string yields zero tokens,
and `"Banana, Ripe!"` tokenizes to `["banana", "ripe"]`. -/
theorem C2_tokenization :
    (∀ text : String,
      RunSplit isLowerTokenChar (lowerChars text) ((tokenize text).map String.data)) ∧
    (∀ text : String, ∀ t ∈ tokenize text,
      t ≠ "" ∧ ∀ c ∈ t.data, isLowerTokenChar c = true) ∧
    tokenize "" = [] ∧
    tokenize "Banana, Ripe!" = ["banana", "ripe"] := by
  refine ⟨tokenize_runSplit, ?_, ?_, ?_⟩
  · intro text t ht
    have hdata : t.data ∈ (tokenize text).map String.data := List.mem_map_of_mem _ ht
    have hspec := (tokenize_runSplit text).mem_spec t.data hdata
    refine ⟨?_, hspec.2⟩
    intro hcon
    subst hcon
    exact hspec.1 rfl
  · simp [tokenize, lowerChars, tokenizeChars]
  · simp [tokenize, tokenizeChars, lowerChars, isTokenChar]

theorem C2_tokenization_witness :
    "banana" ∈ tokenize "Banana, Ripe!" ∧
    ("banana" ≠ "" ∧ ∀ c ∈ "banana".data, isLowerTokenChar c = true) :=
  ⟨by simp [tokenize, tokenizeChars, lowerChars, isTokenChar],
   C2_tokenization.2.1 "Banana, Ripe!" "banana"
     (by simp [tokenize, tokenizeChars, lowerChars, isTokenChar])⟩

/-! ### Degenerate input and loading -/

/-- C7: for every description that is empty or consists only of whitespace,
and every `topK`, `recognise` returns the empty sequence (the guard
short-circuits before any scoring). -/
theorem C7_whitespace_short_circuit (e : FoodRecognitionEngine)
    (description : String) (top_k : ℤ)
    (h : description = "" ∨ ∀ c ∈ description.data, c.isWhitespace = true) :
    recognise e description top_k = [] := by
  have hs : stripIsEmpty description = true := by
    rcases h with h | h
    · subst h; rfl
    · simpa [stripIsEmpty, List.all_eq_true] using h
  simp [recognise, hs]

theorem C7_witness :
    recognise sampleEngine "" 3 = [] ∧ recognise sampleEngine "   " 3 = [] :=
  ⟨C7_whitespace_short_circuit _ _ _ (Or.inl rfl),
   C7_whitespace_short_circuit _ _ _ (Or.inr (by decide))⟩

theorem load_reference_error :
    ∀ records : List RawRecord, (∃ r ∈ records, r.name = none) →
      load_reference records = .error "KeyError: name" := by
  intro records
  induction records with
  | nil => intro h; simp at h
  | cons r rs ih =>
    intro h
    cases hrn : r.name with
    | none => simp [load_reference, hrn]
    | some n =>
      have hrs : ∃ r ∈ rs, r.name = none := by
        rcases h with ⟨r', hr', hname⟩
        rcases List.mem_cons.mp hr' with h1 | h1
        · subst h1; rw [hrn] at hname; exact absurd hname (by simp)
        · exact ⟨r', h1, hname⟩
      simp [load_reference, hrn, ih hrs, Except.map]

/-- C10: a reference record with no `name` field makes construction fail
during loading (a `KeyError`), so no engine with an unnamed item is ever
produced. -/
theorem C10_missing_name (records : List RawRecord)
    (h : ∃ r ∈ records, r.name = none) :
    load_reference records = .error "KeyError: name" ∧
    initEngine records = .error "KeyError: name" := by
  have hload := load_reference_error records h
  exact ⟨hload, by simp [initEngine, hload, Except.map]⟩

theorem C10_witness :
    load_reference [noNameRecord] = .error "KeyError: name" ∧
    initEngine [noNameRecord] = .error "KeyError: name" :=
  C10_missing_name [noNameRecord] ⟨noNameRecord, by simp, rfl⟩

/-! ### Catalog invariant -/

theorem reachable_aligned {e : FoodRecognitionEngine} (h : Reachable e) :
    aligned e := by
  induction h with
  | init records items hload =>
    simp [aligned, mkEngine, encode, List.map_map, Function.comp]
  | add e item _ ih =>
    simp only [aligned, add_custom_item] at ih ⊢
    simp [List.map_append, ih]

/-- C8: in every reachable engine state the vector sequence is index-aligned
with the item sequence (equal lengths, the `i`-th vector encoding the `i`-th
item's representation), and `add_custom_item` appends exactly one item
together with its vector. -/
theorem C8_catalog_alignment (e : FoodRecognitionEngine) (h : Reachable e) :
    e.reference_vectors.length = e.reference_items.length ∧
    (∀ i : ℕ, e.reference_vectors[i]? =
      e.reference_items[i]?.map fun item => encodeOne (item_representation item)) ∧
    (∀ item : FoodItem,
      (add_custom_item e item).reference_items = e.reference_items ++ [item] ∧
      (add_custom_item e item).reference_vectors
        = e.reference_vectors ++ [encodeOne (item_representation item)]) := by
  have ha := reachable_aligned h
  refine ⟨?_, ?_, fun item => ⟨rfl, rfl⟩⟩
  · rw [ha]; simp
  · intro i; rw [ha]; simp

theorem C8_witness :
    sampleEngine.reference_vectors.length = sampleEngine.reference_items.length ∧
    sampleEngine.reference_vectors[0]? =
      sampleEngine.reference_items[0]?.map
        (fun item => encodeOne (item_representation item)) ∧
    (add_custom_item sampleEngine pbjItem).reference_items
      = sampleEngine.reference_items ++ [pbjItem] := by
  have h := C8_catalog_alignment sampleEngine
    (Reachable.init sampleRecords [bananaItem, appleItem] rfl)
  exact ⟨h.1, h.2.1 0, (h.2.2 pbjItem).1⟩

/-! ### Ranking, truncation and membership -/

theorem length_scoredList (e : FoodRecognitionEngine) (d : String) :
    (scoredList e d).length
      = min e.reference_items.length e.reference_vectors.length := by
  simp [scoredList]

theorem recognise_not_stripped {e : FoodRecognitionEngine} {d : String} {k : ℤ}
    (h : stripIsEmpty d = false) :
    recognise e d k = pySlice ((scoredList e d).mergeSort confLe) k := by
  simp [recognise, h]

theorem length_pySlice (l : List α) (k : ℤ) :
    (pySlice l k).length
      = if 0 ≤ k then min k.toNat l.length else l.length - (-k).toNat := by
  by_cases h : 0 ≤ k
  · simp [pySlice, h]
  · simp only [pySlice, if_neg h, List.length_take]
    omega

theorem pySlice_sublist (l : List α) (k : ℤ) : (pySlice l k).Sublist l := by
  by_cases h : 0 ≤ k
  · simp only [pySlice, if_pos h]
    exact List.take_sublist _ _
  · simp only [pySlice, if_neg h]
    exact List.take_sublist _ _

theorem confLe_trans (a b c : RecognisedFood) (h1 : confLe a b = true)
    (h2 : confLe b c = true) : confLe a c = true := by
  simp only [confLe, decide_eq_true_eq] at *
  exact le_trans h2 h1

theorem confLe_total (a b : RecognisedFood) : (confLe a b || confLe b a) = true := by
  simp only [confLe, Bool.or_eq_true, decide_eq_true_eq]
  exact le_total b.confidence a.confidence

/-- C1 (amended): for a non-whitespace description, `topK = 0` yields an
empty sequence, a non-negative `topK` yields `min(topK, N)` results (hence at
most `topK`), `topK ≥ N` yields the whole ranked catalog, and a negative
`topK` follows Python slice semantics: it drops the last `|topK|` ranked
entries rather than returning an empty sequence. -/
theorem C1_topk_bounds (e : FoodRecognitionEngine) (description : String)
    (top_k : ℤ) (hd : stripIsEmpty description = false)
    (hlen : e.reference_vectors.length = e.reference_items.length) :
    (top_k = 0 → recognise e description top_k = []) ∧
    (0 ≤ top_k → (recognise e description top_k).length
        = min top_k.toNat e.reference_items.length) ∧
    ((e.reference_items.length : ℤ) ≤ top_k →
      recognise e description top_k = (scoredList e description).mergeSort confLe) ∧
    (top_k < 0 → (recognise e description top_k).length
        = e.reference_items.length - (-top_k).toNat) := by
  have hN : ((scoredList e description).mergeSort confLe).length
      = e.reference_items.length := by
    rw [List.length_mergeSort, length_scoredList, hlen, Nat.min_self]
  rw [recognise_not_stripped hd]
  refine ⟨?_, ?_, ?_, ?_⟩
  · intro h; subst h; simp [pySlice]
  · intro h; rw [length_pySlice, if_pos h, hN]
  · intro h
    have hle : ((scoredList e description).mergeSort confLe).length ≤ top_k.toNat := by
      rw [hN]; omega
    have h0 : 0 ≤ top_k := le_trans (Int.natCast_nonneg _) h
    simp only [pySlice, if_pos h0]
    exact List.take_of_length_le hle
  · intro h; rw [length_pySlice, if_neg (by omega), hN]

theorem C1_witness : recognise sampleEngine "banana" 0 = [] :=
  (C1_topk_bounds sampleEngine "banana" 0 (by decide)
    (by simp [sampleEngine, mkEngine, encode])).1 rfl

/-- C1 counterexample: on a two-item catalog, `recognise` with `topK = -1`
returns one result, not an empty sequence, although `-1 ≤ 0`. -/
theorem C1_counterexample :
    (-1 : ℤ) ≤ 0 ∧ stripIsEmpty "banana" = false ∧
    recognise sampleEngine "banana" (-1) ≠ [] := by
  refine ⟨by norm_num, by decide, ?_⟩
  intro hcon
  have hlen2 : (recognise sampleEngine "banana" (-1)).length = 1 := by
    rw [recognise_not_stripped (by decide), length_pySlice, if_neg (by norm_num),
      List.length_mergeSort, length_scoredList]
    simp [sampleEngine, mkEngine, encode]
  rw [hcon] at hlen2
  simp at hlen2

/-- C5: for a non-whitespace description and positive `topK`, the returned
sequence is sorted by descending confidence, has length at most `topK`, and
the underlying stable sort keeps results of equal confidence in catalog
order; the result is exactly the `topK`-truncation of the ranked catalog. -/
theorem C5_ranking (e : FoodRecognitionEngine) (description : String)
    (top_k : ℤ) (hd : stripIsEmpty description = false) (hk : 0 < top_k) :
    (recognise e description top_k).Sorted confDesc ∧
    (recognise e description top_k).length ≤ top_k.toNat ∧
    (∀ x y : RecognisedFood, [x, y].Sublist (scoredList e description) →
      x.confidence = y.confidence →
      [x, y].Sublist ((scoredList e description).mergeSort confLe)) ∧
    recognise e description top_k
      = ((scoredList e description).mergeSort confLe).take top_k.toNat := by
  have heq : recognise e description top_k
      = ((scoredList e description).mergeSort confLe).take top_k.toNat := by
    rw [recognise_not_stripped hd]
    simp [pySlice, le_of_lt hk]
  have hsorted : ((scoredList e description).mergeSort confLe).Pairwise
      (fun a b => confLe a b = true) :=
    List.sorted_mergeSort confLe_trans confLe_total _
  refine ⟨?_, ?_, ?_, heq⟩
  · rw [heq]
    refine List.Pairwise.imp ?_ (hsorted.sublist (List.take_sublist _ _))
    intro a b hab
    simpa [confLe, confDesc] using hab
  · rw [heq]
    simp [List.length_take]
  · intro x y hsub hconf
    refine List.sublist_mergeSort confLe_trans confLe_total ?_ hsub
    simp [List.pairwise_cons, confLe, hconf]

theorem C5_witness :
    (recognise sampleEngine "banana" 3).Sorted confDesc ∧
    (recognise sampleEngine "banana" 3).length ≤ (3 : ℤ).toNat :=
  ⟨(C5_ranking sampleEngine "banana" 3 (by decide) (by norm_num)).1,
   (C5_ranking sampleEngine "banana" 3 (by decide) (by norm_num)).2.1⟩

theorem mem_scored_of_mem_recognise {e : FoodRecognitionEngine} {d : String}
    {k : ℤ} {r : RecognisedFood} (h : r ∈ recognise e d k) :
    r ∈ scoredList e d := by
  cases hstrip : stripIsEmpty d with
  | true => simp [recognise, hstrip] at h
  | false =>
    rw [recognise_not_stripped hstrip] at h
    have h2 : r ∈ (scoredList e d).mergeSort confLe :=
      (pySlice_sublist _ _).subset h
    exact (List.mergeSort_perm (scoredList e d) confLe).subset h2

theorem mem_recognise_of_mem_scored {e : FoodRecognitionEngine} {d : String}
    {k : ℤ} {r : RecognisedFood} (hd : stripIsEmpty d = false)
    (hk : (e.reference_items.length : ℤ) ≤ k) (h : r ∈ scoredList e d) :
    r ∈ recognise e d k := by
  rw [recognise_not_stripped hd]
  have hlen : ((scoredList e d).mergeSort confLe).length ≤ k.toNat := by
    rw [List.length_mergeSort, length_scoredList]
    have hmin : min e.reference_items.length e.reference_vectors.length
        ≤ e.reference_items.length := Nat.min_le_left _ _
    omega
  have h0 : 0 ≤ k := le_trans (Int.natCast_nonneg _) hk
  simp only [pySlice, if_pos h0, List.take_of_length_le hlen]
  exact (List.mergeSort_perm (scoredList e d) confLe).mem_iff.mpr h

theorem scoredList_add_custom {e : FoodRecognitionEngine} {X : FoodItem}
    {d : String} (hlen : e.reference_vectors.length = e.reference_items.length) :
    scoredList (add_custom_item e X) d = scoredList e d ++
      [{ item := X
         confidence := assignedConfidence X d (encodeOne (item_representation X)) }] := by
  simp only [scoredList, add_custom_item, List.zip_append hlen.symm]
  rw [List.map_append]
  rfl

/-- C9 (amended): after `add_custom_item(X)` on a reachable engine, a
`recognise` call whose description lexically matches `X` — and is not
whitespace-only — includes `X` with confidence at least `0.99`, provided
`topK` is at least the catalog size; the custom item's vector is computed
with the same representation and encoding as reference items. -/
theorem C9_custom_item_visibility (e : FoodRecognitionEngine) (X : FoodItem)
    (description : String) (top_k : ℤ) (hre : Reachable e)
    (hmatch : X.matches description = true)
    (hd : stripIsEmpty description = false)
    (hk : ((add_custom_item e X).reference_items.length : ℤ) ≤ top_k) :
    (∃ r ∈ recognise (add_custom_item e X) description top_k,
      r.item = X ∧ (0.99 : ℝ) ≤ r.confidence) ∧
    (add_custom_item e X).reference_vectors
      = e.reference_vectors ++ [encodeOne (item_representation X)] := by
  have ha := reachable_aligned hre
  have hlen : e.reference_vectors.length = e.reference_items.length := by
    rw [ha]; simp
  refine ⟨?_, rfl⟩
  refine ⟨{ item := X
            confidence := assignedConfidence X description
              (encodeOne (item_representation X)) }, ?_, rfl, ?_⟩
  · refine mem_recognise_of_mem_scored hd hk ?_
    rw [scoredList_add_custom hlen]
    exact List.mem_append_right _ (List.mem_singleton.mpr rfl)
  · simp only [assignedConfidence, hmatch, if_true]
    exact le_max_right _ _

/-- C9 counterexample: a whitespace-only description can lexically match an
item name that contains a space, yet `recognise` short-circuits and returns
an empty sequence, so the matching custom item is not included even though
`topK` exceeds the catalog size. -/
theorem C9_counterexample :
    abItem.matches " " = true ∧
    ((add_custom_item singleEngine abItem).reference_items.length : ℤ) ≤ 10 ∧
    ¬∃ r ∈ recognise (add_custom_item singleEngine abItem) " " 10,
      r.item = abItem ∧ (0.99 : ℝ) ≤ r.confidence := by
  have hempty : recognise (add_custom_item singleEngine abItem) " " 10 = [] := by
    have hs : stripIsEmpty " " = true := by decide
    simp [recognise, hs]
  refine ⟨by decide, ?_, ?_⟩
  · simp [add_custom_item, singleEngine, mkEngine]
  · rw [hempty]
    simp

theorem C9_witness :
    ∃ r ∈ recognise (add_custom_item singleEngine pbjItem) "PB&J" 2,
      r.item = pbjItem ∧ (0.99 : ℝ) ≤ r.confidence :=
  (C9_custom_item_visibility singleEngine pbjItem "PB&J" 2
    (Reachable.init singleRecords [bananaItem] rfl)
    (by decide) (by decide)
    (by simp [add_custom_item, singleEngine, mkEngine])).1

/-- C3: the confidence assigned to catalog entry `i` is the cosine
similarity of the description vector and the item's vector, raised to
`max(cosine, 0.99)` exactly when the item lexically matches; the override
never lowers a cosine score already at or above `0.99`, and a matching item
is returned with confidence at least `0.99` when `topK` covers the catalog. -/
theorem C3_confidence_override (e : FoodRecognitionEngine) (description : String)
    (i : ℕ) (item : FoodItem) (vec : TextVector)
    (hit : e.reference_items[i]? = some item)
    (hv : e.reference_vectors[i]? = some vec) :
    (scoredList e description)[i]?
      = some { item := item, confidence := assignedConfidence item description vec } ∧
    (item.matches description = false →
      assignedConfidence item description vec
        = cosine_similarity (encodeOne description) vec) ∧
    (item.matches description = true →
      assignedConfidence item description vec
        = max (cosine_similarity (encodeOne description) vec) 0.99 ∧
      (0.99 : ℝ) ≤ assignedConfidence item description vec) ∧
    cosine_similarity (encodeOne description) vec
      ≤ assignedConfidence item description vec ∧
    ((0.99 : ℝ) ≤ cosine_similarity (encodeOne description) vec →
      assignedConfidence item description vec
        = cosine_similarity (encodeOne description) vec) ∧
    (stripIsEmpty description = false → item.matches description = true →
      ∀ k : ℤ, (e.reference_items.length : ℤ) ≤ k →
        ∃ r ∈ recognise e description k,
          r.item = item ∧ (0.99 : ℝ) ≤ r.confidence) := by
  have hscored : (scoredList e description)[i]?
      = some { item := item, confidence := assignedConfidence item description vec } := by
    have hz : (e.reference_items.zip e.reference_vectors)[i]? = some (item, vec) :=
      List.getElem?_zip_eq_some.mpr ⟨hit, hv⟩
    simp only [scoredList, List.getElem?_map, hz, Option.map_some']
    rfl
  refine ⟨hscored, ?_, ?_, ?_, ?_, ?_⟩
  · intro h; simp [assignedConfidence, h]
  · intro h
    refine ⟨by simp [assignedConfidence, h], ?_⟩
    simp only [assignedConfidence, h, if_true]
    exact le_max_right _ _
  · by_cases h : item.matches description
    · simp only [assignedConfidence, h, if_true]
      exact le_max_left _ _
    · simp [assignedConfidence, h]
  · intro h
    by_cases hm : item.matches description
    · simp only [assignedConfidence, hm, if_true]
      exact max_eq_left (le_trans (by norm_num) h)
    · simp [assignedConfidence, hm]
  · intro hd hm k hk
    refine ⟨{ item := item, confidence := assignedConfidence item description vec },
      ?_, rfl, ?_⟩
    · exact mem_recognise_of_mem_scored hd hk (List.getElem?_mem hscored)
    · simp only [assignedConfidence, hm, if_true]
      exact le_max_right _ _

theorem C3_witness :
    cosine_similarity (encodeOne "banana")
        (encodeOne (item_representation bananaItem))
      ≤ assignedConfidence bananaItem "banana"
        (encodeOne (item_representation bananaItem)) ∧
    ∃ r ∈ recognise singleEngine "banana" 1,
      r.item = bananaItem ∧ (0.99 : ℝ) ≤ r.confidence := by
  have h := C3_confidence_override singleEngine "banana" 0 bananaItem
    (encodeOne (item_representation bananaItem))
    (by simp [singleEngine, mkEngine])
    (by simp [singleEngine, mkEngine, encode])
  exact ⟨h.2.2.2.1, h.2.2.2.2.2 (by decide) (by decide) 1
    (by simp [singleEngine, mkEngine])⟩

/-! ### Vector normalisation -/

theorem mem_of_mem_dedupKeepFirst :
    ∀ l : List String, ∀ a ∈ dedupKeepFirst l, a ∈ l := by
  have H : ∀ n, ∀ l : List String, l.length = n → ∀ a ∈ dedupKeepFirst l, a ∈ l := by
    intro n
    induction n using Nat.strong_induction_on with
    | _ n ih =>
      intro l hn a ha
      match l with
      | [] => rw [dedupKeepFirst] at ha; exact absurd ha (by simp)
      | t :: ts =>
        rw [dedupKeepFirst] at ha
        rcases List.mem_cons.mp ha with h | h
        · subst h; exact List.mem_cons_self _ _
        · have hlt : (ts.filter fun u => u != t).length < n := by
            subst hn
            simp only [List.length_cons]
            exact Nat.lt_succ_of_le (List.filter_sublist _).length_le
          have := ih _ hlt _ rfl a h
          exact List.mem_cons_of_mem _ ((List.filter_sublist _).subset this)
  exact fun l => H l.length l rfl

theorem nodup_dedupKeepFirst : ∀ l : List String, (dedupKeepFirst l).Nodup := by
  have H : ∀ n, ∀ l : List String, l.length = n → (dedupKeepFirst l).Nodup := by
    intro n
    induction n using Nat.strong_induction_on with
    | _ n ih =>
      intro l hn
      match l with
      | [] => rw [dedupKeepFirst]; exact List.nodup_nil
      | t :: ts =>
        rw [dedupKeepFirst]
        have hlt : (ts.filter fun u => u != t).length < n := by
          subst hn
          simp only [List.length_cons]
          exact Nat.lt_succ_of_le (List.filter_sublist _).length_le
        refine List.Nodup.cons ?_ (ih _ hlt _ rfl)
        intro hmem
        have := mem_of_mem_dedupKeepFirst _ _ hmem
        simp only [List.mem_filter, bne_self_eq_false] at this
        exact absurd this.2 (by simp)
  exact fun l => H l.length l rfl

theorem dedupKeepFirst_eq_nil_iff (l : List String) :
    dedupKeepFirst l = [] ↔ l = [] := by
  match l with
  | [] => simp [dedupKeepFirst]
  | t :: ts => rw [dedupKeepFirst]; simp

theorem sumSq_nil : sumSq [] = 0 := rfl

theorem sumSq_cons (k : String) (x : ℝ) (v : TextVector) :
    sumSq ((k, x) :: v) = x * x + sumSq v := by
  simp [sumSq]

theorem sumSq_nonneg (v : TextVector) : 0 ≤ sumSq v := by
  induction v with
  | nil => simp [sumSq]
  | cons p v ih =>
    rw [show p = (p.1, p.2) from rfl, sumSq_cons]
    have := mul_self_nonneg p.2
    linarith

theorem sumSq_pos_of_mem {v : TextVector} {k : String} {x : ℝ}
    (hmem : (k, x) ∈ v) (hx : x ≠ 0) : 0 < sumSq v := by
  induction v with
  | nil => exact absurd hmem (by simp)
  | cons p v ih =>
    rw [show p = (p.1, p.2) from rfl, sumSq_cons]
    rcases List.mem_cons.mp hmem with h | h
    · have hp2 : p.2 = x := congrArg Prod.snd h.symm
      have h1 : 0 < p.2 * p.2 := by rw [hp2]; exact mul_self_pos.mpr hx
      have h2 := sumSq_nonneg v
      linarith
    · have h1 := mul_self_nonneg p.2
      have h2 := ih h
      linarith

theorem sumSq_map_div (v : TextVector) (d : ℝ) :
    sumSq (v.map fun p => (p.1, p.2 / d)) = sumSq v / (d * d) := by
  induction v with
  | nil => simp [sumSq]
  | cons p v ih =>
    rw [show p = (p.1, p.2) from rfl]
    simp only [List.map_cons, sumSq_cons, ih]
    rw [div_mul_div_comm, div_add_div_same]

theorem encodeOne_eq_normalise_raw (text : String) :
    encodeOne text = normalise (rawVector text) := rfl

theorem rawVector_sumSq_pos {text : String} (h : tokenize text ≠ []) :
    0 < sumSq (rawVector text) := by
  have hne : dedupKeepFirst (tokenize text) ≠ [] := by
    rw [Ne, dedupKeepFirst_eq_nil_iff]
    exact h
  match hd : dedupKeepFirst (tokenize text) with
  | [] => exact absurd hd hne
  | t :: ts =>
    have htmem : t ∈ tokenize text :=
      mem_of_mem_dedupKeepFirst _ _ (hd ▸ List.mem_cons_self t ts)
    have hcount : 0 < (tokenize text).count t := List.count_pos_iff.mpr htmem
    have hmem : (t, (((tokenize text).count t : ℕ) : ℝ)) ∈ rawVector text := by
      simp only [rawVector, counts, hd, List.map_cons, List.map_map]
      exact List.mem_cons_self _ _
    refine sumSq_pos_of_mem hmem ?_
    simp only [ne_eq, Nat.cast_eq_zero]
    omega

theorem encodeOne_formula {text : String} (h : tokenize text ≠ []) :
    encodeOne text = (rawVector text).map
      fun p => (p.1, p.2 / Real.sqrt (sumSq (rawVector text))) := by
  have hS : 0 < sumSq (rawVector text) := rawVector_sumSq_pos h
  have hsqrt : Real.sqrt (sumSq (rawVector text)) ≠ 0 := by
    rw [Ne, Real.sqrt_eq_zero']
    push_neg
    exact hS
  rw [encodeOne_eq_normalise_raw]
  simp only [normalise, if_neg hsqrt]

theorem sumSq_encodeOne_eq_one {text : String} (h : tokenize text ≠ []) :
    sumSq (encodeOne text) = 1 := by
  have hS : 0 < sumSq (rawVector text) := rawVector_sumSq_pos h
  rw [encodeOne_formula h, sumSq_map_div,
    Real.mul_self_sqrt (le_of_lt hS), div_self (ne_of_gt hS)]

theorem encodeOne_eq_nil {text : String} (h : tokenize text = []) :
    encodeOne text = [] := by
  rw [encodeOne_eq_normalise_raw]
  simp [rawVector, counts, h, dedupKeepFirst, normalise]

/-- C4: for a text with at least one token, every raw count is divided by
the (non-zero) Euclidean norm of the count vector and the resulting squared
weights sum to `1`; a token-less text yields the empty vector (the divisor
is replaced by `1.0`, so no division by zero occurs). -/
theorem C4_unit_norm (text : String) :
    (tokenize text ≠ [] →
      sumSq (encodeOne text) = 1 ∧
      encodeOne text = (rawVector text).map
        fun p => (p.1, p.2 / Real.sqrt (sumSq (rawVector text)))) ∧
    (tokenize text = [] → encodeOne text = []) :=
  ⟨fun h => ⟨sumSq_encodeOne_eq_one h, encodeOne_formula h⟩,
   fun h => encodeOne_eq_nil h⟩

theorem C4_witness :
    sumSq (encodeOne "banana ripe") = 1 :=
  ((C4_unit_norm "banana ripe").1
    (by simp [tokenize, tokenizeChars, lowerChars, isTokenChar])).1

/-! ### Cosine similarity bounds -/

theorem lookup0_cons_self (k : String) (x : ℝ) (v : TextVector) :
    lookup0 ((k, x) :: v) k = x := by
  simp [lookup0]

theorem lookup0_cons_ne {k k' : String} (x : ℝ) (v : TextVector)
    (h : k' ≠ k) : lookup0 ((k, x) :: v) k' = lookup0 v k' := by
  unfold lookup0
  rw [List.find?_cons_of_neg]
  simp only [beq_iff_eq]
  exact fun hc => h hc.symm

theorem mem_keysFinset {v : TextVector} {k : String} :
    k ∈ keysFinset v ↔ hasKey v k = true := by
  simp only [keysFinset, List.mem_toFinset, List.mem_map, hasKey,
    List.any_eq_true, beq_iff_eq]

theorem keysFinset_cons (k : String) (x : ℝ) (v : TextVector) :
    keysFinset ((k, x) :: v) = insert k (keysFinset v) := by
  simp [keysFinset]

theorem sumSq_eq_sum_keysFinset (v : TextVector)
    (hnd : (v.map Prod.fst).Nodup) :
    sumSq v = ∑ k ∈ keysFinset v, lookup0 v k * lookup0 v k := by
  induction v with
  | nil => simp [sumSq, keysFinset]
  | cons p v ih =>
    obtain ⟨k₀, x₀⟩ := p
    simp only [List.map_cons, List.nodup_cons] at hnd
    obtain ⟨hk₀, hnd'⟩ := hnd
    have hk₀f : k₀ ∉ keysFinset v := by
      simp only [keysFinset, List.mem_toFinset]
      exact hk₀
    rw [sumSq_cons, keysFinset_cons, Finset.sum_insert hk₀f, lookup0_cons_self]
    congr 1
    rw [ih hnd']
    refine Finset.sum_congr rfl ?_
    intro k hk
    have hne : k ≠ k₀ := by
      rintro rfl
      exact hk₀f hk
    rw [lookup0_cons_ne _ _ hne]

theorem cosine_eq_sum_inter (a b : TextVector)
    (hnd : (a.map Prod.fst).Nodup) :
    cosine_similarity a b
      = ∑ k ∈ keysFinset a ∩ keysFinset b, lookup0 a k * lookup0 b k := by
  induction a with
  | nil => simp [cosine_similarity, keysFinset]
  | cons p a ih =>
    obtain ⟨k₀, x₀⟩ := p
    simp only [List.map_cons, List.nodup_cons] at hnd
    obtain ⟨hk₀, hnd'⟩ := hnd
    have hk₀f : k₀ ∉ keysFinset a := by
      simp only [keysFinset, List.mem_toFinset]
      exact hk₀
    have hcongr : ∀ k ∈ keysFinset a ∩ keysFinset b,
        lookup0 a k * lookup0 b k
          = lookup0 ((k₀, x₀) :: a) k * lookup0 b k := by
      intro k hk
      have hka : k ∈ keysFinset a := Finset.mem_of_mem_inter_left hk
      have hne : k ≠ k₀ := by
        rintro rfl
        exact hk₀f hka
      rw [lookup0_cons_ne _ _ hne]
    by_cases hb : hasKey b k₀
    · have hfil : ((k₀, x₀) :: a).filter (fun p => hasKey b p.1)
          = (k₀, x₀) :: a.filter (fun p => hasKey b p.1) := by
        simp [List.filter_cons, hb]
      have hinter : keysFinset ((k₀, x₀) :: a) ∩ keysFinset b
          = insert k₀ (keysFinset a ∩ keysFinset b) := by
        rw [keysFinset_cons, Finset.insert_inter_of_mem (mem_keysFinset.mpr hb)]
      have hnotin : k₀ ∉ keysFinset a ∩ keysFinset b := by
        intro hc
        exact hk₀f (Finset.mem_of_mem_inter_left hc)
      simp only [cosine_similarity, hfil, List.map_cons, List.sum_cons]
      rw [hinter, Finset.sum_insert hnotin, lookup0_cons_self]
      congr 1
      rw [show ((a.filter fun p => hasKey b p.1).map
          fun p => p.2 * lookup0 b p.1).sum = cosine_similarity a b from rfl,
        ih hnd']
      exact Finset.sum_congr rfl hcongr
    · have hfil : ((k₀, x₀) :: a).filter (fun p => hasKey b p.1)
          = a.filter (fun p => hasKey b p.1) := by
        simp [List.filter_cons, hb]
      have hinter : keysFinset ((k₀, x₀) :: a) ∩ keysFinset b
          = keysFinset a ∩ keysFinset b := by
        rw [keysFinset_cons, Finset.insert_inter_of_not_mem]
        intro hc
        exact hb (mem_keysFinset.mp hc)
      simp only [cosine_similarity, hfil]
      rw [hinter,
        show ((a.filter fun p => hasKey b p.1).map
          fun p => p.2 * lookup0 b p.1).sum = cosine_similarity a b from rfl,
        ih hnd']
      exact Finset.sum_congr rfl hcongr

theorem lookup0_nonneg {v : TextVector} (hv : ∀ p ∈ v, 0 ≤ p.2)
    (k : String) : 0 ≤ lookup0 v k := by
  unfold lookup0
  cases hf : v.find? (fun p => p.1 == k) with
  | none => simp
  | some p =>
    simp only [Option.map_some', Option.getD_some]
    exact hv p (List.mem_of_find?_eq_some hf)

theorem encodeOne_values_nonneg (text : String) :
    ∀ p ∈ encodeOne text, 0 ≤ p.2 := by
  intro p hp
  rw [encodeOne_eq_normalise_raw] at hp
  simp only [normalise] at hp
  rcases List.mem_map.mp hp with ⟨q, hq, rfl⟩
  simp only [rawVector, List.mem_map] at hq
  rcases hq with ⟨c, _, rfl⟩
  refine div_nonneg (Nat.cast_nonneg _) ?_
  by_cases h : Real.sqrt (sumSq (rawVector text)) = 0
  · simp [h]
  · simp only [if_neg h]
    exact Real.sqrt_nonneg _

theorem keys_normalise (v : TextVector) :
    (normalise v).map Prod.fst = v.map Prod.fst := by
  simp only [normalise, List.map_map]
  rfl

theorem keys_rawVector (text : String) :
    (rawVector text).map Prod.fst = dedupKeepFirst (tokenize text) := by
  simp only [rawVector, counts, List.map_map]
  show List.map (fun t : String => t) (dedupKeepFirst (tokenize text))
      = dedupKeepFirst (tokenize text)
  exact List.map_id' _

theorem nodup_keys_encodeOne (text : String) :
    ((encodeOne text).map Prod.fst).Nodup := by
  rw [encodeOne_eq_normalise_raw, keys_normalise, keys_rawVector]
  exact nodup_dedupKeepFirst _

theorem sumSq_encodeOne_le_one (text : String) : sumSq (encodeOne text) ≤ 1 := by
  by_cases h : tokenize text = []
  · rw [encodeOne_eq_nil h, sumSq_nil]
    norm_num
  · rw [sumSq_encodeOne_eq_one h]

theorem cosine_encodeOne_bounds (s t : String) :
    0 ≤ cosine_similarity (encodeOne s) (encodeOne t) ∧
    cosine_similarity (encodeOne s) (encodeOne t) ≤ 1 := by
  have hnda := nodup_keys_encodeOne s
  have hndb := nodup_keys_encodeOne t
  have hna := encodeOne_values_nonneg s
  have hnb := encodeOne_values_nonneg t
  rw [cosine_eq_sum_inter _ _ hnda]
  have hnonneg : 0 ≤ ∑ k ∈ keysFinset (encodeOne s) ∩ keysFinset (encodeOne t),
      lookup0 (encodeOne s) k * lookup0 (encodeOne t) k :=
    Finset.sum_nonneg fun k _ =>
      mul_nonneg (lookup0_nonneg hna k) (lookup0_nonneg hnb k)
  refine ⟨hnonneg, ?_⟩
  have hfa : ∑ k ∈ keysFinset (encodeOne s) ∩ keysFinset (encodeOne t),
      lookup0 (encodeOne s) k ^ 2 ≤ 1 := by
    calc ∑ k ∈ keysFinset (encodeOne s) ∩ keysFinset (encodeOne t),
        lookup0 (encodeOne s) k ^ 2
        ≤ ∑ k ∈ keysFinset (encodeOne s), lookup0 (encodeOne s) k ^ 2 :=
          Finset.sum_le_sum_of_subset_of_nonneg Finset.inter_subset_left
            fun i _ _ => sq_nonneg _
      _ = sumSq (encodeOne s) := by
          rw [sumSq_eq_sum_keysFinset _ hnda]
          exact Finset.sum_congr rfl fun k _ => pow_two _
      _ ≤ 1 := sumSq_encodeOne_le_one s
  have hfb : ∑ k ∈ keysFinset (encodeOne s) ∩ keysFinset (encodeOne t),
      lookup0 (encodeOne t) k ^ 2 ≤ 1 := by
    calc ∑ k ∈ keysFinset (encodeOne s) ∩ keysFinset (encodeOne t),
        lookup0 (encodeOne t) k ^ 2
        ≤ ∑ k ∈ keysFinset (encodeOne t), lookup0 (encodeOne t) k ^ 2 :=
          Finset.sum_le_sum_of_subset_of_nonneg Finset.inter_subset_right
            fun i _ _ => sq_nonneg _
      _ = sumSq (encodeOne t) := by
          rw [sumSq_eq_sum_keysFinset _ hndb]
          exact Finset.sum_congr rfl fun k _ => pow_two _
      _ ≤ 1 := sumSq_encodeOne_le_one t
  have hCS := Finset.sum_mul_sq_le_sq_mul_sq
    (keysFinset (encodeOne s) ∩ keysFinset (encodeOne t))
    (lookup0 (encodeOne s)) (lookup0 (encodeOne t))
  have hsq1 : (0:ℝ) ≤ ∑ k ∈ keysFinset (encodeOne s) ∩ keysFinset (encodeOne t),
      lookup0 (encodeOne s) k ^ 2 :=
    Finset.sum_nonneg fun k _ => sq_nonneg _
  nlinarith [hnonneg, hCS, hfa, hfb, hsq1]

theorem mem_scoredList_conf {e : FoodRecognitionEngine} {d : String}
    {r : RecognisedFood} (ha : aligned e) (h : r ∈ scoredList e d) :
    ∃ text : String,
      r.confidence = if r.item.matches d
        then max (cosine_similarity (encodeOne d) (encodeOne text)) 0.99
        else cosine_similarity (encodeOne d) (encodeOne text) := by
  simp only [scoredList] at h
  rcases List.mem_map.mp h with ⟨p, hp, rfl⟩
  have hv : p.2 ∈ e.reference_vectors := (List.of_mem_zip hp).2
  rw [ha] at hv
  rcases List.mem_map.mp hv with ⟨item, _, hvec⟩
  exact ⟨item_representation item, by rw [← hvec]⟩

/-- C6: the cosine similarity of any two encoded vectors lies in `[0, 1]`,
and consequently every confidence returned by `recognise` on an aligned
engine lies in `[0, 1]`, the `0.99` override floor included. -/
theorem C6_confidence_bounds :
    (∀ s t : String,
      0 ≤ cosine_similarity (encodeOne s) (encodeOne t) ∧
      cosine_similarity (encodeOne s) (encodeOne t) ≤ 1) ∧
    (∀ (e : FoodRecognitionEngine) (description : String) (k : ℤ),
      aligned e → ∀ r ∈ recognise e description k,
        0 ≤ r.confidence ∧ r.confidence ≤ 1) := by
  refine ⟨cosine_encodeOne_bounds, ?_⟩
  intro e description k ha r hr
  obtain ⟨text, hconf⟩ := mem_scoredList_conf ha (mem_scored_of_mem_recognise hr)
  obtain ⟨h0, h1⟩ := cosine_encodeOne_bounds description text
  rw [hconf]
  by_cases hm : r.item.matches description
  · simp only [hm, if_true]
    exact ⟨le_trans h0 (le_max_left _ _), max_le h1 (by norm_num)⟩
  · simp only [hm, if_false]
    exact ⟨h0, h1⟩

theorem C6_witness :
    0 ≤ (assignedConfidence bananaItem "banana"
        (encodeOne (item_representation bananaItem))) ∧
    (assignedConfidence bananaItem "banana"
        (encodeOne (item_representation bananaItem))) ≤ 1 := by
  have haligned : aligned singleEngine := rfl
  have hmem : ({ item := bananaItem
                 confidence := assignedConfidence bananaItem "banana"
                   (encodeOne (item_representation bananaItem)) } : RecognisedFood)
      ∈ recognise singleEngine "banana" 3 := by
    refine mem_recognise_of_mem_scored (by decide) ?_ ?_
    · show ((1 : ℕ) : ℤ) ≤ 3
      norm_num
    · exact List.mem_singleton.mpr rfl
  exact C6_confidence_bounds.2 singleEngine "banana" 3 haligned _ hmem

end FoodTracker
